import Mathlib

/-!
Shallow embedding of the Nemesis copyright scanner
(`internal/scanner/scanner.go`) and verification of the specification
claims about it.

Strings are modelled as `List Char`.  The Go `unicode` classification
functions (`IsPunct`, `IsSymbol`, `IsSpace`, `ToLower`) are modelled on
the ASCII range (code points outside ASCII are treated as plain letters);
every concrete input exercised by the claims is ASCII apart from the
copyright sign, which only ever occurs inside a substring test.
-/

namespace Nemesis

/-- Convert a Lean string literal to the model's character-list strings. -/
def strOf (s : String) : List Char := s.data

/-- ASCII lower-casing at the code-point level (model of `unicode.ToLower`
restricted to ASCII). -/
def lowerNat (n : Nat) : Nat := if 65 ≤ n ∧ n ≤ 90 then n + 32 else n

/-- Model of `unicode.ToLower` on a character. -/
def toLowerChar (c : Char) : Char := Char.ofNat (lowerNat c.toNat)

/-- Model of `unicode.IsSpace` (ASCII whitespace). -/
def isSpaceChar (c : Char) : Bool :=
  c.toNat = 32 ∨ c.toNat = 9 ∨ c.toNat = 10 ∨ c.toNat = 13 ∨ c.toNat = 11 ∨ c.toNat = 12

/-- ASCII alphanumeric test at the code-point level. -/
def isAlphanumNat (n : Nat) : Bool :=
  (48 ≤ n ∧ n ≤ 57) ∨ (65 ≤ n ∧ n ≤ 90) ∨ (97 ≤ n ∧ n ≤ 122)

/-- Model of `unicode.IsPunct(r) || unicode.IsSymbol(r)`: on ASCII this is
exactly the printable non-alphanumeric non-space characters. -/
def isPunctSymChar (c : Char) : Bool :=
  33 ≤ c.toNat ∧ c.toNat ≤ 126 ∧ ¬ isAlphanumNat c.toNat

/-- Model of `strings.ToLower` (character-wise). -/
def lowerStr (s : List Char) : List Char := s.map toLowerChar

/-- Model of `strings.Contains(s, pat)`: `pat` occurs as a contiguous
substring of `s`. -/
def containsSub : List Char → List Char → Bool
  | [], pat => pat.isPrefixOf []
  | c :: rest, pat =>
    if pat.isPrefixOf (c :: rest) then true else containsSub rest pat

/-- Model of `strings.TrimSpace`. -/
def trimSpace (s : List Char) : List Char :=
  ((s.dropWhile isSpaceChar).reverse.dropWhile isSpaceChar).reverse

/-- Generic splitter: cut the character list at every character
satisfying `p`, keeping empty chunks (the shape shared by
`strings.Split` and, after dropping empties, `strings.Fields`). -/
def splitOnPred (p : Char → Bool) : List Char → List (List Char)
  | [] => [[]]
  | c :: rest =>
    if p c then [] :: splitOnPred p rest
    else
      match splitOnPred p rest with
      | [] => [[c]]
      | t :: ts => (c :: t) :: ts

/-- Model of `strings.Split(s, "\n")`: split at every newline, keeping
empty chunks. -/
def splitNlChars (s : List Char) : List (List Char) :=
  splitOnPred (fun c => c = '\n') s

/-- The recursion of `replaceAll`, with explicit fuel (one unit per
consumed character of `s`, so `s.length` units always complete the
scan); the fuel only makes the recursion structural. -/
def replaceAllFuel (rep pat : List Char) : Nat → List Char → List Char
  | 0, s => s
  | _ + 1, [] => []
  | fuel + 1, c :: rest =>
    if pat.isPrefixOf (c :: rest) ∧ pat ≠ [] then
      rep ++ replaceAllFuel rep pat fuel ((c :: rest).drop pat.length)
    else c :: replaceAllFuel rep pat fuel rest

/-- Model of `strings.ReplaceAll(s, pat, rep)`: replace every
non-overlapping occurrence of `pat`, leftmost first.  (The empty-pattern
case, which Go treats specially, never arises at any call site.) -/
def replaceAll (s pat rep : List Char) : List Char :=
  replaceAllFuel rep pat s.length s

/-- Model of `strings.Fields`: whitespace-delimited tokens, no empties. -/
def fieldsOf (s : List Char) : List (List Char) :=
  (splitOnPred isSpaceChar s).filter (fun t => t ≠ [])

/-- Model of `strings.Join(ts, " ")`. -/
def joinSpace : List (List Char) → List Char
  | [] => []
  | [t] => t
  | t :: ts => t ++ ' ' :: joinSpace ts

/-- Numeric value of a digit string (helper for `atoiVal`). -/
def digitsVal (t : List Char) : Int :=
  t.foldl (fun acc c => 10 * acc + (c.toNat - 48)) 0

/-- Whether a character list is a nonempty all-digit string. -/
def allDigits (t : List Char) : Bool := t ≠ [] ∧ t.all Char.isDigit

/-- Model of `strconv.Atoi`: `some` value on an optionally-signed nonempty
digit string, `none` otherwise.  (Overflow of Go's int is ignored; every
reachable call site passes short tokens.) -/
def atoiVal : List Char → Option Int
  | '+' :: rest => if allDigits rest then some (digitsVal rest) else none
  | '-' :: rest => if allDigits rest then some (-(digitsVal rest)) else none
  | t => if allDigits t then some (digitsVal t) else none

/-- The stopword list skipped by `normalizeForComparison`. -/
def isStopword (f : List Char) : Bool :=
  f = strOf "copyright" ∨ f = strOf "c" ∨ f = strOf "by" ∨
  f = strOf "corp" ∨ f = strOf "corporation" ∨ f = strOf "inc" ∨
  f = strOf "affiliates" ∨ f = strOf "all" ∨ f = strOf "rights" ∨
  f = strOf "reserved" ∨ f = strOf "and" ∨ f = strOf "the" ∨
  f = strOf "team" ∨ f = strOf "authors" ∨ f = strOf "license"

/-- The year-range lookahead condition of `normalizeForComparison`
(scanner.go lines 132-143), on the current token and the next two. -/
def yearRangeSkip (f sep f2 : List Char) : Bool :=
  decide (f.length = 4) &&
  (match atoiVal f with
   | some year1 =>
     decide (sep = strOf "-" ∨ sep = strOf "to") &&
     (match atoiVal f2 with
      | some year2 => decide (year2 > year1 ∧ year2 - year1 ≤ 100)
      | none => false)
   | none => false)

/-- The token-filtering loop of `normalizeForComparison` (scanner.go lines
112-146): skip stopwords, then bare 4-character numeric tokens, then the
year-range lookahead, in exactly the source's order of checks. -/
def cleanFieldsLoop : List (List Char) → List (List Char)
  | [] => []
  | f :: rest =>
    if isStopword f then cleanFieldsLoop rest
    else if f.length = 4 ∧ (atoiVal f).isSome then cleanFieldsLoop rest
    else
      match rest with
      | sep :: f2 :: rest2 =>
        if yearRangeSkip f sep f2 then cleanFieldsLoop rest2
        else f :: cleanFieldsLoop (sep :: f2 :: rest2)
      | [] => [f]
      | [g] => f :: cleanFieldsLoop [g]

/-- The character substitution of `normalizeForComparison`'s `strings.Map`
pass: punctuation and symbols become a space, everything else is
lower-cased. -/
def normMapChar (c : Char) : Char :=
  if isPunctSymChar c then ' ' else toLowerChar c

/-- Model of `normalizeForComparison` (scanner.go lines 95-149). -/
def normalizeForComparison (s : List Char) : List Char :=
  let s1 := lowerStr s
  let s2 := s1.map normMapChar
  joinSpace (cleanFieldsLoop (fieldsOf s2))

/-- The marker strings stripped by `cleanLine` (scanner.go line 70), in
the source's order. -/
def markers : List (List Char) :=
  [strOf "//", strOf "/*", strOf "*/", strOf "#", strOf "*", strOf "+",
   strOf "-", strOf "<!--", strOf "-->"]

/-- One iteration of `cleanLine`'s loop body: trim, replace every marker
occurrence by a space, collapse whitespace. -/
def cleanStep (t : List Char) : List Char :=
  joinSpace (fieldsOf (markers.foldl (fun acc pat => replaceAll acc pat (strOf " ")) (trimSpace t)))

/-- The fixpoint loop of `cleanLine`, with explicit fuel.  Every iteration
that changes the string removes at least one non-space character (each
marker is replaced by a space), so `t.length + 2` iterations always reach
the fixpoint; the fuel only serves to express the source's
loop-until-unchanged in a total function. -/
def cleanIter : Nat → List Char → List Char
  | 0, t => t
  | fuel + 1, t =>
    let t2 := cleanStep t
    if t2 = t then t else cleanIter fuel t2

/-- Model of `cleanLine` (scanner.go lines 68-92). -/
def cleanLine (line : List Char) : List Char :=
  cleanIter (line.length + 2) line

/-- The suppression test of `extractCopyright` (scanner.go lines 200-232):
the lowercased line contains one of the code/test/boilerplate signals. -/
def isSuppressedLine (lowercaseLine : List Char) : Bool :=
  containsSub lowercaseLine (strOf "func ") ∨
  containsSub lowercaseLine (strOf "type ") ∨
  containsSub lowercaseLine (strOf "var ") ∨
  containsSub lowercaseLine (strOf "const ") ∨
  containsSub lowercaseLine (strOf "package ") ∨
  containsSub lowercaseLine (strOf "import ") ∨
  containsSub lowercaseLine (strOf "return ") ∨
  containsSub lowercaseLine (strOf ":=") ∨
  containsSub lowercaseLine (strOf "if ") ∨
  containsSub lowercaseLine (strOf "test") ∨
  containsSub lowercaseLine (strOf "echo") ∨
  containsSub lowercaseLine (strOf "find_") ∨
  containsSub lowercaseLine (strOf "append") ∨
  containsSub lowercaseLine (strOf "error:") ∨
  containsSub lowercaseLine (strOf "grep") ∨
  containsSub lowercaseLine (strOf "egrep") ∨
  containsSub lowercaseLine (strOf "while ") ∨
  containsSub lowercaseLine (strOf "read ") ∨
  containsSub lowercaseLine (strOf "|") ∨
  containsSub lowercaseLine (strOf "grant of") ∨
  containsSub lowercaseLine (strOf "license") ∨
  containsSub lowercaseLine (strOf "permission") ∨
  containsSub lowercaseLine (strOf "permitted") ∨
  containsSub lowercaseLine (strOf "distribute") ∨
  containsSub lowercaseLine (strOf "notice") ∨
  containsSub lowercaseLine (strOf "provided") ∨
  containsSub lowercaseLine (strOf "conditions") ∨
  containsSub lowercaseLine (strOf "subject to") ∨
  containsSub lowercaseLine (strOf "you may") ∨
  containsSub lowercaseLine (strOf "you must") ∨
  containsSub lowercaseLine (strOf "shall") ∨
  containsSub lowercaseLine (strOf "retain") ∨
  containsSub lowercaseLine (strOf "reproduce")

/-- The copyright-signal test of `extractCopyright` (scanner.go lines
253-268): a copyright keyword on the lowercased line — or the literal
`(C)` on the untouched line — and none of the exclusion substrings. -/
def isCopyrightSignal (lowercaseLine trimmedLine : List Char) : Bool :=
  (containsSub lowercaseLine (strOf "copyright") ∨
   containsSub lowercaseLine (strOf "©") ∨
   containsSub lowercaseLine (strOf "(c)") ∨
   containsSub trimmedLine (strOf "(C)")) ∧
  ¬ containsSub lowercaseLine (strOf "copyrightadder") ∧
  ¬ containsSub lowercaseLine (strOf "copyrighttext") ∧
  ¬ containsSub lowercaseLine (strOf "addcopyright") ∧
  ¬ containsSub lowercaseLine (strOf "extractcopyright") ∧
  ¬ containsSub lowercaseLine (strOf "hascopyright") ∧
  ¬ containsSub lowercaseLine (strOf "copyright.sh") ∧
  ¬ containsSub lowercaseLine (strOf "copyright notice") ∧
  ¬ containsSub lowercaseLine (strOf "copyright owner") ∧
  ¬ containsSub lowercaseLine (strOf "copyright holder") ∧
  ¬ containsSub lowercaseLine (strOf "above copyright") ∧
  ¬ containsSub lowercaseLine (strOf "retain") ∧
  ¬ containsSub lowercaseLine (strOf "reproduce")

/-- The mutable state of `extractCopyright`'s loop: the output builder,
the per-file seen set of normalized keys, the multi-line buffer, and the
collecting flag. -/
structure EState where
  out : List Char
  seen : List (List Char)
  cur : List Char
  collecting : Bool
deriving DecidableEq, Repr

/-- The flush block of `extractCopyright` (scanner.go lines 181-189 and
duplicates): clean the buffer, normalize, emit if the key is unseen,
clear the buffer.  The collecting flag is untouched here; boundary
handling resets it separately, as in the source. -/
def flushCur (st : EState) : EState :=
  if st.cur ≠ [] then
    let cleaned := cleanLine st.cur
    let key := normalizeForComparison cleaned
    if st.seen.contains key then { st with cur := [] }
    else { st with out := st.out ++ cleaned ++ ['\n'], seen := key :: st.seen, cur := [] }
  else st

/-- Blank-line / suppressed-line boundary handling: flush any collected
notice and return to the idle state. -/
def boundaryFlush (st : EState) : EState :=
  if st.collecting then { flushCur st with collecting := false } else st

/-- Processing of one line of input by `extractCopyright`'s loop
(scanner.go lines 175-276), with the source's order of checks: blank
line, suppressed line, copyright signal, continuation. -/
def processLine (st : EState) (line : List Char) : EState :=
  let trimmedLine := trimSpace line
  if trimmedLine = [] then boundaryFlush st
  else
    let lowercaseLine := lowerStr trimmedLine
    if isSuppressedLine lowercaseLine then boundaryFlush st
    else if isCopyrightSignal lowercaseLine trimmedLine then
      { st with collecting := true, cur := st.cur ++ trimmedLine }
    else if st.collecting then
      { st with cur := st.cur ++ ' ' :: trimmedLine }
    else st

/-- Model of `extractCopyright` (scanner.go lines 152-293) on a file's
content: process every line, then flush a still-collecting buffer at end
of input (scanner.go lines 278-289). -/
def extractCopyright (content : List Char) : List Char :=
  let final := (splitNlChars content).foldl processLine ⟨[], [], [], false⟩
  (if final.collecting ∧ final.cur ≠ [] then flushCur final else final).out

/-- What `isTextFile` observes of a file: the open can fail, the first
read can fail with an I/O error other than end-of-input, or it yields the
file's leading bytes (at most 512; an empty file yields zero bytes with
end-of-input, which is not an error). -/
inductive FileAccess where
  | openErr
  | readErr
  | bytes (data : List Nat)
deriving DecidableEq, Repr

/-- Model of `isAllowedControlChar` (scanner.go lines 62-65), on byte
values. -/
def isAllowedControlChar (b : Nat) : Bool := b = 10 ∨ b = 13 ∨ b = 9

/-- Model of `isTextFile` (scanner.go lines 30-59): reject on open or
read failure, on a zero byte in the sample, or on a disallowed control
byte; accept otherwise. -/
def isTextFile (f : FileAccess) : Bool :=
  match f with
  | .openErr => false
  | .readErr => false
  | .bytes data =>
    let buf := data.take 512
    if buf.contains 0 then false
    else buf.all (fun b => ¬(b < 32 ∧ ¬ isAllowedControlChar b))

/-- What `ScanDirectory`'s walk callback observes of one walked entry:
a directory (skipped), a non-text file (skipped), a text file whose
extraction fails with an I/O error (logged and skipped), or a text file
whose content is extracted by `extractCopyright`. -/
inductive WalkEntry where
  | dir
  | nontext
  | extractErr
  | file (content : List Char)
deriving DecidableEq, Repr

/-- The walk's accumulated state: the result builder and the tree-wide
seen set.  The source's tree-wide set (scanner.go line 364) is keyed by
the raw notice line `c`, not by a normalized key. -/
structure ScanState where
  out : List Char
  seen : List (List Char)
deriving DecidableEq, Repr

/-- The per-notice loop of `ScanDirectory` (scanner.go lines 400-406):
append each nonempty line of one file's extraction output unless the raw
line is already in the tree-wide seen set. -/
def addTreeLines : ScanState → List (List Char) → ScanState
  | st, [] => st
  | st, c :: cs =>
    if c ≠ [] ∧ ¬ st.seen.contains c then
      addTreeLines ⟨st.out ++ c ++ ['\n'], c :: st.seen⟩ cs
    else addTreeLines st cs

/-- One step of `ScanDirectory`'s walk callback (scanner.go lines
377-410). -/
def scanStep (st : ScanState) : WalkEntry → ScanState
  | .dir => st
  | .nontext => st
  | .extractErr => st
  | .file content =>
    let copyright := extractCopyright content
    if copyright ≠ [] then addTreeLines st (splitNlChars copyright) else st

/-- The notice body accumulated by `ScanDirectory`'s walk over a list of
entries (in traversal order). -/
def scanBody (entries : List WalkEntry) : List Char :=
  (entries.foldl scanStep ⟨[], []⟩).out

/-- The license-probe loop of `ScanDirectory` (scanner.go lines 368-375):
the first candidate file that can be read supplies the license content;
`reads` lists the read result for each candidate name in the source's
fixed order. -/
def firstLicense : List (Option (List Char)) → List Char
  | [] => []
  | some content :: _ => content
  | none :: rest => firstLicense rest

/-- Model of `ScanDirectory` (scanner.go lines 362-430): the walked
notice body, followed — when license content was found and is nonempty —
by the separator header and the raw license content, padded with a final
newline when the content does not end with one. -/
def scanDirectory (licenseReads : List (Option (List Char))) (entries : List WalkEntry) :
    List Char :=
  let licenseContent := firstLicense licenseReads
  let body := scanBody entries
  if licenseContent ≠ [] then
    body ++ strOf "\nLicense Text:\n" ++ strOf "----------------------------------------\n\n" ++
      licenseContent ++ (if List.isSuffixOf ['\n'] licenseContent then [] else ['\n'])
  else body

/-- The notice lines of a report: its newline-separated nonempty chunks. -/
def reportNoticeLines (r : List Char) : List (List Char) :=
  (splitNlChars r).filter (fun c => c ≠ [])

/-- The copyright-signal predicate with the case-sensitive `(C)` clause
removed, following the specification's description of the redundancy
claim; compared against `isCopyrightSignal` in claim C10. -/
def isCopyrightSignalNoUpperC (lowercaseLine : List Char) : Bool :=
  (containsSub lowercaseLine (strOf "copyright") ∨
   containsSub lowercaseLine (strOf "©") ∨
   containsSub lowercaseLine (strOf "(c)")) ∧
  ¬ containsSub lowercaseLine (strOf "copyrightadder") ∧
  ¬ containsSub lowercaseLine (strOf "copyrighttext") ∧
  ¬ containsSub lowercaseLine (strOf "addcopyright") ∧
  ¬ containsSub lowercaseLine (strOf "extractcopyright") ∧
  ¬ containsSub lowercaseLine (strOf "hascopyright") ∧
  ¬ containsSub lowercaseLine (strOf "copyright.sh") ∧
  ¬ containsSub lowercaseLine (strOf "copyright notice") ∧
  ¬ containsSub lowercaseLine (strOf "copyright owner") ∧
  ¬ containsSub lowercaseLine (strOf "copyright holder") ∧
  ¬ containsSub lowercaseLine (strOf "above copyright") ∧
  ¬ containsSub lowercaseLine (strOf "retain") ∧
  ¬ containsSub lowercaseLine (strOf "reproduce")

/-- Concatenation of emitted notice lines, each with its trailing
newline, oldest first (the shape of the walk's output builder). -/
def emittedConcat : List (List Char) → List Char
  | [] => []
  | c :: cs => c ++ '\n' :: emittedConcat cs

/-- The invariant maintained by `ScanDirectory`'s walk: the output is the
concatenation of the seen notices (oldest first), the seen set has no
duplicates, and every seen notice is a nonempty newline-free line. -/
def scanInv (st : ScanState) : Prop :=
  st.out = emittedConcat st.seen.reverse ∧ st.seen.Nodup ∧
    ∀ c ∈ st.seen, c ≠ [] ∧ '\n' ∉ c

/-- A token that `cleanFieldsLoop` can never drop again: neither a
stopword nor a bare 4-character numeric token. -/
def keptToken (t : List Char) : Prop :=
  ¬ isStopword t = true ∧ ¬ (t.length = 4 ∧ (atoiVal t).isSome = true)

/-! ## Helper lemmas -/

theorem isPrefixOf_map (f : Char → Char) :
    ∀ p s : List Char, p.isPrefixOf s = true → (p.map f).isPrefixOf (s.map f) = true := by
  intro p
  induction p with
  | nil => intro s _; simp [List.isPrefixOf]
  | cons a as ih =>
    intro s h
    cases s with
    | nil => simp [List.isPrefixOf] at h
    | cons b bs =>
      simp only [List.isPrefixOf, Bool.and_eq_true, beq_iff_eq] at h
      simp only [List.map_cons, List.isPrefixOf, Bool.and_eq_true, beq_iff_eq]
      exact ⟨by rw [h.1], ih bs h.2⟩

theorem containsSub_tail (c : Char) (rest pat : List Char)
    (h : containsSub rest pat = true) : containsSub (c :: rest) pat = true := by
  simp only [containsSub]
  split
  · rfl
  · exact h

theorem containsSub_map (f : Char → Char) (s pat : List Char)
    (h : containsSub s pat = true) : containsSub (s.map f) (pat.map f) = true := by
  induction s with
  | nil =>
    simp only [containsSub] at h
    simp only [List.map_nil, containsSub]
    exact isPrefixOf_map f pat [] h
  | cons c rest ih =>
    simp only [containsSub] at h
    split at h
    · rename_i hp
      have hm := isPrefixOf_map f pat (c :: rest) hp
      simp only [List.map_cons] at hm
      simp only [List.map_cons, containsSub]
      rw [if_pos hm]
    · exact containsSub_tail (f c) (rest.map f) (pat.map f) (ih h)

theorem splitOnPred_chunk_pfree (p : Char → Bool) (l : List Char) :
    ∀ t ∈ splitOnPred p l, ∀ c ∈ t, p c = false := by
  induction l with
  | nil =>
    intro t ht c hc
    simp only [splitOnPred, List.mem_singleton] at ht
    subst ht
    simp at hc
  | cons a rest ih =>
    intro t ht c hc
    simp only [splitOnPred] at ht
    by_cases hp : p a
    · rw [if_pos hp] at ht
      rcases List.mem_cons.mp ht with h1 | h2
      · subst h1; simp at hc
      · exact ih t h2 c hc
    · rw [if_neg hp] at ht
      cases hs : splitOnPred p rest with
      | nil =>
        rw [hs] at ht
        simp only [List.mem_singleton] at ht
        subst ht
        rcases List.mem_singleton.mp hc with h3
        subst h3
        exact Bool.not_eq_true _ ▸ by simpa using hp
      | cons t0 ts =>
        rw [hs] at ht
        rcases List.mem_cons.mp ht with h1 | h2
        · subst h1
          rcases List.mem_cons.mp hc with h3 | h4
          · subst h3; simpa using hp
          · exact ih t0 (hs ▸ List.mem_cons_self t0 ts) c h4
        · exact ih t (hs ▸ List.mem_cons_of_mem t0 h2) c hc

theorem splitOnPred_append_sep (p : Char → Bool) (sep : Char) (hsep : p sep = true)
    (a rest : List Char) (hfree : ∀ c ∈ a, p c = false) :
    splitOnPred p (a ++ sep :: rest) = a :: splitOnPred p rest := by
  induction a with
  | nil => simp [splitOnPred, hsep]
  | cons c a2 ih =>
    have hc : p c = false := hfree c (List.mem_cons_self c a2)
    simp only [List.cons_append, splitOnPred, hc, Bool.false_eq_true, if_false]
    have hx := ih (fun d hd => hfree d (List.mem_cons_of_mem c hd))
    rw [show a2.append (sep :: rest) = a2 ++ sep :: rest from rfl, hx]

theorem splitOnPred_pfree (p : Char → Bool) (t : List Char)
    (h : ∀ c ∈ t, p c = false) : splitOnPred p t = [t] := by
  induction t with
  | nil => rfl
  | cons c t2 ih =>
    have hc : p c = false := h c (List.mem_cons_self c t2)
    simp only [splitOnPred, hc, Bool.false_eq_true, if_false]
    rw [ih (fun d hd => h d (List.mem_cons_of_mem c hd))]

theorem emittedConcat_append (A B : List (List Char)) :
    emittedConcat (A ++ B) = emittedConcat A ++ emittedConcat B := by
  induction A with
  | nil => rfl
  | cons c A2 ih => simp [emittedConcat, ih]

theorem reportNoticeLines_emittedConcat (L : List (List Char))
    (h : ∀ c ∈ L, c ≠ [] ∧ '\n' ∉ c) :
    reportNoticeLines (emittedConcat L) = L := by
  induction L with
  | nil => rfl
  | cons c rest ih =>
    obtain ⟨hne, hnl⟩ := h c (List.mem_cons_self c rest)
    have hfree : ∀ d ∈ c, (fun ch => decide (ch = '\n')) d = false := by
      intro d hd
      simp only [decide_eq_false_iff_not]
      intro hdq
      exact hnl (hdq ▸ hd)
    simp only [emittedConcat, reportNoticeLines, splitNlChars]
    rw [splitOnPred_append_sep _ '\n' (by simp) c _ hfree]
    simp only [List.filter_cons]
    rw [if_pos (by simpa using hne)]
    have := ih (fun d hd => h d (List.mem_cons_of_mem c hd))
    simp only [reportNoticeLines, splitNlChars] at this
    rw [this]

theorem addTreeLines_inv (cs : List (List Char)) (st : ScanState) (hst : scanInv st)
    (hcs : ∀ c ∈ cs, '\n' ∉ c) : scanInv (addTreeLines st cs) := by
  induction cs generalizing st with
  | nil => simpa [addTreeLines]
  | cons c rest ih =>
    obtain ⟨hout, hnd, hgood⟩ := hst
    simp only [addTreeLines]
    by_cases hcond : c ≠ [] ∧ ¬ st.seen.contains c = true
    · rw [if_pos hcond]
      apply ih
      · refine ⟨?_, ?_, ?_⟩
        · show st.out ++ c ++ ['\n'] = emittedConcat (c :: st.seen).reverse
          rw [List.reverse_cons, emittedConcat_append, ← hout]
          simp [emittedConcat]
        · exact List.nodup_cons.mpr ⟨fun hmem => hcond.2 (List.elem_iff.mpr hmem), hnd⟩
        · intro d hd
          rcases List.mem_cons.mp hd with h1 | h2
          · cases h1
            exact ⟨hcond.1, hcs _ (List.mem_cons_self _ _)⟩
          · exact hgood d h2
      · exact fun d hd => hcs d (List.mem_cons_of_mem c hd)
    · rw [if_neg hcond]
      exact ih st ⟨hout, hnd, hgood⟩ (fun d hd => hcs d (List.mem_cons_of_mem c hd))

theorem scanStep_inv (st : ScanState) (e : WalkEntry) (hst : scanInv st) :
    scanInv (scanStep st e) := by
  cases e with
  | dir => exact hst
  | nontext => exact hst
  | extractErr => exact hst
  | file content =>
    simp only [scanStep]
    split
    · apply addTreeLines_inv _ _ hst
      intro t ht hq
      have := splitOnPred_chunk_pfree (fun c => decide (c = '\n'))
        (extractCopyright content) t ht '\n' hq
      simp at this
    · exact hst

theorem toNat_ofNat_valid (n : Nat) (h : n.isValidChar) : (Char.ofNat n).toNat = n := by
  simp only [Char.ofNat, h, dif_pos, Char.toNat, Char.ofNatAux, UInt32.toNat]
  rfl

theorem charToNat_valid (c : Char) : c.toNat.isValidChar := by
  have h := c.valid
  simpa [Char.toNat, UInt32.isValidChar] using h

theorem char_eq_of_toNat (a b : Char) (h : a.toNat = b.toNat) : a = b :=
  Char.ext (UInt32.ext h)

theorem lowerNat_valid (n : Nat) (h : n.isValidChar) : (lowerNat n).isValidChar := by
  unfold lowerNat
  rcases h with h | h
  · split
    · left; omega
    · left; exact h
  · split
    · left; omega
    · right; exact h

theorem toNat_toLowerChar (c : Char) : (toLowerChar c).toNat = lowerNat c.toNat :=
  toNat_ofNat_valid _ (lowerNat_valid _ (charToNat_valid c))

theorem lowerNat_idem (n : Nat) : lowerNat (lowerNat n) = lowerNat n := by
  unfold lowerNat
  split
  · split <;> omega
  · rfl

theorem toLowerChar_idem (c : Char) : toLowerChar (toLowerChar c) = toLowerChar c :=
  char_eq_of_toNat _ _ (by rw [toNat_toLowerChar, toNat_toLowerChar, lowerNat_idem])

theorem isPunctSymChar_toLowerChar (c : Char) (h : isPunctSymChar c = false) :
    isPunctSymChar (toLowerChar c) = false := by
  simp only [isPunctSymChar, isAlphanumNat, toNat_toLowerChar, lowerNat,
    decide_eq_false_iff_not, decide_eq_true_eq] at h ⊢
  push_neg at h ⊢
  split
  · intro h1 h2
    omega
  · exact h

theorem normMapChar_lower_cases (c : Char) :
    normMapChar (toLowerChar c) = ' ' ∨
      (toLowerChar (normMapChar (toLowerChar c)) = normMapChar (toLowerChar c) ∧
       isPunctSymChar (normMapChar (toLowerChar c)) = false) := by
  by_cases h : isPunctSymChar (toLowerChar c) = true
  · left
    simp [normMapChar, h]
  · right
    have h2 : isPunctSymChar (toLowerChar c) = false := by simpa using h
    simp only [normMapChar, h2, Bool.false_eq_true, if_false]
    exact ⟨toLowerChar_idem (toLowerChar c), by rw [toLowerChar_idem]; exact h2⟩

theorem map_fix (f : Char → Char) (l : List Char) (h : ∀ c ∈ l, f c = c) :
    l.map f = l := by
  induction l with
  | nil => rfl
  | cons c rest ih =>
    rw [List.map_cons, h c (List.mem_cons_self c rest),
      ih (fun d hd => h d (List.mem_cons_of_mem c hd))]

theorem mem_joinSpace (T : List (List Char)) (c : Char) (hc : c ∈ joinSpace T) :
    c = ' ' ∨ ∃ t ∈ T, c ∈ t := by
  induction T with
  | nil => simp [joinSpace] at hc
  | cons t ts ih =>
    cases ts with
    | nil =>
      right
      exact ⟨t, List.mem_cons_self t [], by simpa [joinSpace] using hc⟩
    | cons t2 ts2 =>
      have hj : joinSpace (t :: t2 :: ts2) = t ++ ' ' :: joinSpace (t2 :: ts2) := rfl
      rw [hj] at hc
      rcases List.mem_append.mp hc with h1 | h2
      · right; exact ⟨t, List.mem_cons_self t _, h1⟩
      · rcases List.mem_cons.mp h2 with h3 | h4
        · left; exact h3
        · rcases ih h4 with h5 | ⟨u, hu, hcu⟩
          · left; exact h5
          · right; exact ⟨u, List.mem_cons_of_mem t hu, hcu⟩

theorem fieldsOf_joinSpace (T : List (List Char))
    (h : ∀ t ∈ T, t ≠ [] ∧ ∀ c ∈ t, isSpaceChar c = false) :
    fieldsOf (joinSpace T) = T := by
  induction T with
  | nil => rfl
  | cons t ts ih =>
    obtain ⟨hne, hfree⟩ := h t (List.mem_cons_self t ts)
    cases ts with
    | nil =>
      show fieldsOf (joinSpace [t]) = [t]
      have hj : joinSpace [t] = t := rfl
      unfold fieldsOf
      rw [hj, splitOnPred_pfree _ _ hfree]
      simp [List.filter_cons, hne]
    | cons t2 ts2 =>
      have hj : joinSpace (t :: t2 :: ts2) = t ++ ' ' :: joinSpace (t2 :: ts2) := rfl
      unfold fieldsOf
      rw [hj, splitOnPred_append_sep isSpaceChar ' ' (by decide) t _ hfree]
      simp only [List.filter_cons]
      rw [if_pos (by simpa using hne)]
      have hrec := ih (fun u hu => h u (List.mem_cons_of_mem t hu))
      unfold fieldsOf at hrec
      rw [hrec]

theorem splitOnPred_chunk_subset (p : Char → Bool) (l : List Char) :
    ∀ t ∈ splitOnPred p l, ∀ c ∈ t, c ∈ l := by
  induction l with
  | nil =>
    intro t ht c hc
    simp only [splitOnPred, List.mem_singleton] at ht
    subst ht
    simp at hc
  | cons a rest ih =>
    intro t ht c hc
    simp only [splitOnPred] at ht
    by_cases hp : p a
    · rw [if_pos hp] at ht
      rcases List.mem_cons.mp ht with h1 | h2
      · subst h1; simp at hc
      · exact List.mem_cons_of_mem a (ih t h2 c hc)
    · rw [if_neg hp] at ht
      cases hs : splitOnPred p rest with
      | nil =>
        rw [hs] at ht
        simp only [List.mem_singleton] at ht
        subst ht
        rcases List.mem_singleton.mp hc with h3
        subst h3
        exact List.mem_cons_self c rest
      | cons t0 ts =>
        rw [hs] at ht
        rcases List.mem_cons.mp ht with h1 | h2
        · subst h1
          rcases List.mem_cons.mp hc with h3 | h4
          · subst h3; exact List.mem_cons_self c rest
          · exact List.mem_cons_of_mem a (ih t0 (hs ▸ List.mem_cons_self t0 ts) c h4)
        · exact List.mem_cons_of_mem a (ih t (hs ▸ List.mem_cons_of_mem t0 h2) c hc)

theorem cfl_stop (t : List Char) (ts : List (List Char)) (h : isStopword t = true) :
    cleanFieldsLoop (t :: ts) = cleanFieldsLoop ts := by
  cases ts with
  | nil => simp [cleanFieldsLoop, h]
  | cons a ts2 => cases ts2 <;> simp [cleanFieldsLoop, h]

theorem cfl_year (t : List Char) (ts : List (List Char)) (h1 : ¬ isStopword t = true)
    (h2 : t.length = 4 ∧ (atoiVal t).isSome = true) :
    cleanFieldsLoop (t :: ts) = cleanFieldsLoop ts := by
  cases ts with
  | nil => simp [cleanFieldsLoop, h1, h2]
  | cons a ts2 => cases ts2 <;> simp [cleanFieldsLoop, h1, h2]

theorem cfl_skip (t sep f2 : List Char) (rest2 : List (List Char))
    (h1 : ¬ isStopword t = true) (h2 : ¬ (t.length = 4 ∧ (atoiVal t).isSome = true))
    (h3 : yearRangeSkip t sep f2 = true) :
    cleanFieldsLoop (t :: sep :: f2 :: rest2) = cleanFieldsLoop rest2 := by
  simp [cleanFieldsLoop, h1, h2, h3]

theorem cfl_keep3 (t sep f2 : List Char) (rest2 : List (List Char))
    (h1 : ¬ isStopword t = true) (h2 : ¬ (t.length = 4 ∧ (atoiVal t).isSome = true))
    (h3 : ¬ yearRangeSkip t sep f2 = true) :
    cleanFieldsLoop (t :: sep :: f2 :: rest2) = t :: cleanFieldsLoop (sep :: f2 :: rest2) := by
  simp [cleanFieldsLoop, h1, h2, h3]

theorem cfl_one (t : List Char) (h1 : ¬ isStopword t = true)
    (h2 : ¬ (t.length = 4 ∧ (atoiVal t).isSome = true)) :
    cleanFieldsLoop [t] = [t] := by
  simp [cleanFieldsLoop, h1, h2]

theorem cfl_two (t g : List Char) (h1 : ¬ isStopword t = true)
    (h2 : ¬ (t.length = 4 ∧ (atoiVal t).isSome = true)) :
    cleanFieldsLoop [t, g] = t :: cleanFieldsLoop [g] := by
  conv =>
    lhs
    rw [cleanFieldsLoop]
  simp [h1, h2]

theorem cleanFieldsLoop_sublist (X : List (List Char)) :
    List.Sublist (cleanFieldsLoop X) X := by
  induction X using cleanFieldsLoop.induct with
  | case1 => exact List.Sublist.refl []
  | case2 t ts h1 ih =>
    rw [cfl_stop t ts h1]
    exact ih.cons t
  | case3 t ts h1 h2 ih =>
    rw [cfl_year t ts h1 h2]
    exact ih.cons t
  | case4 t h1 h2 sep f2 rest2 h3 ih =>
    rw [cfl_skip t sep f2 rest2 h1 h2 h3]
    exact ((ih.cons f2).cons sep).cons t
  | case5 t h1 h2 sep f2 rest2 h3 ih =>
    rw [cfl_keep3 t sep f2 rest2 h1 h2 h3]
    exact ih.cons₂ t
  | case6 t h1 h2 =>
    rw [cfl_one t h1 h2]
  | case7 t h1 h2 g ih =>
    rw [cfl_two t g h1 h2]
    exact ih.cons₂ t

theorem cleanFieldsLoop_kept (X : List (List Char)) :
    ∀ t ∈ cleanFieldsLoop X, keptToken t := by
  induction X using cleanFieldsLoop.induct with
  | case1 => simp [cleanFieldsLoop]
  | case2 t ts h1 ih =>
    rw [cfl_stop t ts h1]
    exact ih
  | case3 t ts h1 h2 ih =>
    rw [cfl_year t ts h1 h2]
    exact ih
  | case4 t h1 h2 sep f2 rest2 h3 ih =>
    rw [cfl_skip t sep f2 rest2 h1 h2 h3]
    exact ih
  | case5 t h1 h2 sep f2 rest2 h3 ih =>
    rw [cfl_keep3 t sep f2 rest2 h1 h2 h3]
    intro u hu
    rcases List.mem_cons.mp hu with hh | hh
    · subst hh; exact ⟨h1, h2⟩
    · exact ih u hh
  | case6 t h1 h2 =>
    rw [cfl_one t h1 h2]
    intro u hu
    rcases List.mem_singleton.mp hu with hh
    subst hh
    exact ⟨h1, h2⟩
  | case7 t h1 h2 g ih =>
    rw [cfl_two t g h1 h2]
    intro u hu
    rcases List.mem_cons.mp hu with hh | hh
    · subst hh; exact ⟨h1, h2⟩
    · exact ih u hh

theorem yearRangeSkip_year (f sep f2 : List Char) (h : yearRangeSkip f sep f2 = true) :
    f.length = 4 ∧ (atoiVal f).isSome = true := by
  unfold yearRangeSkip at h
  rw [Bool.and_eq_true] at h
  obtain ⟨h1, h2⟩ := h
  refine ⟨by simpa using h1, ?_⟩
  cases hv : atoiVal f with
  | none => rw [hv] at h2; simp at h2
  | some y => simp

theorem cleanFieldsLoop_fixed (X : List (List Char)) (h : ∀ t ∈ X, keptToken t) :
    cleanFieldsLoop X = X := by
  induction X using cleanFieldsLoop.induct with
  | case1 => rfl
  | case2 t ts h1 ih =>
    exact absurd h1 (h t (List.mem_cons_self t ts)).1
  | case3 t ts h1 h2 ih =>
    exact absurd h2 (h t (List.mem_cons_self t ts)).2
  | case4 t h1 h2 sep f2 rest2 h3 ih =>
    exact absurd (yearRangeSkip_year t sep f2 h3) h2
  | case5 t h1 h2 sep f2 rest2 h3 ih =>
    rw [cfl_keep3 t sep f2 rest2 h1 h2 h3,
      ih (fun u hu => h u (List.mem_cons_of_mem t hu))]
  | case6 t h1 h2 =>
    exact cfl_one t h1 h2
  | case7 t h1 h2 g ih =>
    rw [cfl_two t g h1 h2,
      ih (fun u hu => h u (List.mem_cons_of_mem t hu))]

/-! ## Claim theorems -/

/-- Claim C4: `normalizeForComparison` is idempotent — applying it to its
own output returns that output unchanged, for every input string. -/
theorem claim_C4 (s : List Char) :
    normalizeForComparison (normalizeForComparison s) = normalizeForComparison s := by
  have hchar : ∀ d ∈ (lowerStr s).map normMapChar,
      d = ' ' ∨ (toLowerChar d = d ∧ isPunctSymChar d = false) := by
    intro d hd
    simp only [lowerStr, List.map_map, List.mem_map] at hd
    obtain ⟨c, _, rfl⟩ := hd
    exact normMapChar_lower_cases c
  have htok : ∀ t ∈ cleanFieldsLoop (fieldsOf ((lowerStr s).map normMapChar)),
      t ≠ [] ∧ ∀ c ∈ t,
        isSpaceChar c = false ∧ toLowerChar c = c ∧ isPunctSymChar c = false := by
    intro t ht
    have htf : t ∈ fieldsOf ((lowerStr s).map normMapChar) :=
      (cleanFieldsLoop_sublist _).subset ht
    have hmem : t ∈ splitOnPred isSpaceChar ((lowerStr s).map normMapChar) ∧ t ≠ [] := by
      have := List.mem_filter.mp htf
      exact ⟨this.1, by simpa using this.2⟩
    refine ⟨hmem.2, fun c hc => ?_⟩
    have hfree := splitOnPred_chunk_pfree isSpaceChar _ t hmem.1 c hc
    have hcs2 : c ∈ (lowerStr s).map normMapChar :=
      splitOnPred_chunk_subset isSpaceChar _ t hmem.1 c hc
    rcases hchar c hcs2 with h1 | h2
    · subst h1
      exact absurd hfree (by decide)
    · exact ⟨hfree, h2.1, h2.2⟩
  have hmap1 : (joinSpace (cleanFieldsLoop (fieldsOf ((lowerStr s).map normMapChar)))).map
      toLowerChar = joinSpace (cleanFieldsLoop (fieldsOf ((lowerStr s).map normMapChar))) := by
    apply map_fix
    intro c hc
    rcases mem_joinSpace _ c hc with h1 | ⟨t, ht, hct⟩
    · subst h1; decide
    · exact ((htok t ht).2 c hct).2.1
  have hmap2 : (joinSpace (cleanFieldsLoop (fieldsOf ((lowerStr s).map normMapChar)))).map
      normMapChar = joinSpace (cleanFieldsLoop (fieldsOf ((lowerStr s).map normMapChar))) := by
    apply map_fix
    intro c hc
    rcases mem_joinSpace _ c hc with h1 | ⟨t, ht, hct⟩
    · subst h1; decide
    · obtain ⟨_, hfix, hpunct⟩ := (htok t ht).2 c hct
      simp only [normMapChar, hpunct, Bool.false_eq_true, if_false]
      exact hfix
  have hfields : fieldsOf (joinSpace (cleanFieldsLoop (fieldsOf ((lowerStr s).map
      normMapChar)))) = cleanFieldsLoop (fieldsOf ((lowerStr s).map normMapChar)) :=
    fieldsOf_joinSpace _ (fun t ht => ⟨(htok t ht).1, fun c hc => ((htok t ht).2 c hc).1⟩)
  have hfixed : cleanFieldsLoop (cleanFieldsLoop (fieldsOf ((lowerStr s).map
      normMapChar))) = cleanFieldsLoop (fieldsOf ((lowerStr s).map normMapChar)) :=
    cleanFieldsLoop_fixed _ (cleanFieldsLoop_kept _)
  unfold lowerStr at hmap1 hmap2 hfields hfixed
  show joinSpace (cleanFieldsLoop (fieldsOf (List.map normMapChar (List.map toLowerChar
      (joinSpace (cleanFieldsLoop (fieldsOf (List.map normMapChar
        (List.map toLowerChar s))))))))) =
    joinSpace (cleanFieldsLoop (fieldsOf (List.map normMapChar (List.map toLowerChar s))))
  rw [hmap1, hmap2, hfields, hfixed]

/-- Claim C2: the specification says that in `normalizeForComparison` a
4-digit year, a `-` or `to` separator and a within-100 larger 4-digit
year are dropped as one unit, so that `2019 to 2021` contributes nothing
to the key.  The code disagrees: the bare-year rule (scanner.go lines
124-129) fires on the first year before the range lookahead (lines
132-143) is ever consulted, so the lookahead is unreachable and the
separator token `to` survives into the key. -/
theorem claim_C2_eval :
    normalizeForComparison (strOf "2019 to 2021") = strOf "to" ∧
    strOf "to" ≠ ([] : List Char) := by decide

/-- Claim C3 (counterexample): the flushed notice for the two-line file
`// Copyright 2019-2021` / `// Example Inc. All rights reserved.` is not
the string the specification announces, because `cleanLine` also
replaces the `-` inside `2019-2021` by a space. -/
theorem claim_C3_counterexample :
    extractCopyright (strOf "// Copyright 2019-2021\n// Example Inc. All rights reserved.") ≠
      strOf "Copyright 2019-2021 Example Inc. All rights reserved.\n" ∧
    containsSub
      (extractCopyright (strOf "// Copyright 2019-2021\n// Example Inc. All rights reserved."))
      (strOf "2019-2021") = false := by decide

/-- Claim C3 (amended): the two lines are joined and flushed as one
cleaned notice, but `-` is itself in `cleanLine`'s marker list and is
replaced everywhere it occurs, so the year range comes out as
`2019 2021`. -/
theorem claim_C3 :
    extractCopyright (strOf "// Copyright 2019-2021\n// Example Inc. All rights reserved.") =
      strOf "Copyright 2019 2021 Example Inc. All rights reserved.\n" := by decide

/-- Claim C9: an empty file is classified as text (a zero-byte first read
with end-of-input is not an error, and the empty sample has no offending
byte), and the extractor then yields the empty result on it. -/
theorem claim_C9 :
    isTextFile (FileAccess.bytes []) = true ∧ extractCopyright [] = [] := by decide

/-- Claim C6: `isTextFile` looks at no byte past the first 512, and
returns `false` exactly on an open or read failure, a zero byte in the
sample, or a disallowed control byte in the sample; in particular a zero
byte among the first 512 forces `false`. -/
theorem claim_C6 :
    (∀ data : List Nat, isTextFile (.bytes data) = isTextFile (.bytes (data.take 512))) ∧
    (∀ f : FileAccess, isTextFile f = false ↔
      f = .openErr ∨ f = .readErr ∨
      ∃ data, f = .bytes data ∧
        (0 ∈ data.take 512 ∨ ∃ b ∈ data.take 512, b < 32 ∧ ¬ isAllowedControlChar b)) ∧
    (∀ data : List Nat, 0 ∈ data.take 512 → isTextFile (.bytes data) = false) := by
  refine ⟨?_, ?_, ?_⟩
  · intro data
    simp [isTextFile, List.take_take]
  · intro f
    cases f with
    | openErr => simp [isTextFile]
    | readErr => simp [isTextFile]
    | bytes data =>
      simp only [isTextFile, reduceCtorEq, false_or, FileAccess.bytes.injEq]
      constructor
      · intro h
        refine ⟨data, rfl, ?_⟩
        split at h
        · rename_i hc
          exact Or.inl (List.elem_iff.mp hc)
        · rename_i hc
          rw [← Bool.not_eq_true, List.all_eq_true] at h
          push_neg at h
          obtain ⟨b, hb, hp⟩ := h
          rw [Ne, decide_eq_true_eq] at hp
          push_neg at hp
          exact Or.inr ⟨b, hb, hp⟩
      · rintro ⟨data2, hdata, hin⟩
        subst hdata
        cases hin with
        | inl h0 =>
          rw [if_pos (List.elem_iff.mpr h0)]
        | inr hb =>
          obtain ⟨b, hb, hlt, hctl⟩ := hb
          split
          · rfl
          · rw [← Bool.not_eq_true, List.all_eq_true]
            push_neg
            refine ⟨b, hb, ?_⟩
            simp [hlt, hctl]
  · intro data h0
    simp only [isTextFile]
    rw [if_pos (List.elem_iff.mpr h0)]

/-- Witness for claim C6 at a concrete file: a sample with a zero byte
among its first 512 bytes is classified as non-text. -/
theorem claim_C6_witness :
    isTextFile (FileAccess.bytes (72 :: 0 :: List.replicate 600 65)) = false :=
  claim_C6.2.2 (72 :: 0 :: List.replicate 600 65) (by decide)

/-- Claim C10: removing the case-sensitive `(C)` test from the
copyright-signal predicate does not change it on any line, because the
lowercased line contains `(c)` whenever the original line contains
`(C)`; signal detection is in effect fully case-insensitive. -/
theorem claim_C10 (trimmedLine : List Char) :
    isCopyrightSignal (lowerStr trimmedLine) trimmedLine =
      isCopyrightSignalNoUpperC (lowerStr trimmedLine) := by
  have key : containsSub trimmedLine (strOf "(C)") = true →
      containsSub (lowerStr trimmedLine) (strOf "(c)") = true := by
    intro h
    have h2 := containsSub_map toLowerChar trimmedLine (strOf "(C)") h
    have : (strOf "(C)").map toLowerChar = strOf "(c)" := by decide
    rw [this] at h2
    exact h2
  unfold isCopyrightSignal isCopyrightSignalNoUpperC
  by_cases hC : containsSub trimmedLine (strOf "(C)") = true
  · have hc := key hC
    simp [hC, hc]
  · simp only [Bool.not_eq_true] at hC
    simp [hC]

/-- Claim C5: a line containing a suppression signal — such as
`func Copyright() string {`, which contains `func ` — is handled by the
suppressed-line rule before the copyright-signal rule is consulted: it
only flushes an in-progress buffer and idles the state machine, never
starting or continuing collection, even though the copyright-signal
predicate would in fact match the line. -/
theorem claim_C5 (st : EState) :
    processLine st (strOf "func Copyright() string \x7b") = boundaryFlush st ∧
    (boundaryFlush st).collecting = false ∧
    ((boundaryFlush st).cur = [] ∨ (boundaryFlush st).cur = st.cur) ∧
    isSuppressedLine (lowerStr (strOf "func Copyright() string \x7b")) = true ∧
    isCopyrightSignal (lowerStr (strOf "func Copyright() string \x7b"))
      (strOf "func Copyright() string \x7b") = true := by
  refine ⟨?_, ?_, ?_, by decide, by decide⟩
  · have h1 : trimSpace (strOf "func Copyright() string \x7b") =
        strOf "func Copyright() string \x7b" := by decide
    have h2 : isSuppressedLine (lowerStr (strOf "func Copyright() string \x7b")) = true := by
      decide
    have h3 : strOf "func Copyright() string \x7b" ≠ ([] : List Char) := by decide
    simp only [processLine, h1, h2, if_pos, if_neg h3, if_true]
  · by_cases h : st.collecting
    · simp [boundaryFlush, h]
    · simp only [boundaryFlush, h]
      simp only [Bool.not_eq_true] at h
      simp [h]
  · by_cases h : st.collecting
    · simp only [boundaryFlush, h, if_true]
      by_cases hc : st.cur = []
      · simp [flushCur, hc]
      · simp only [flushCur, if_pos (by simpa using hc)]
        split <;> simp
    · simp [boundaryFlush, h]

/-- Claim C7: an extraction error for one walked file is absorbed — the
walk step leaves the accumulated state untouched, and the whole report
equals the one produced had that file yielded an empty extraction
result. -/
theorem claim_C7 (lic : List (Option (List Char))) (pre post : List WalkEntry) :
    scanDirectory lic (pre ++ WalkEntry.extractErr :: post) =
      scanDirectory lic (pre ++ WalkEntry.file [] :: post) ∧
    ∀ st : ScanState, scanStep st WalkEntry.extractErr = st := by
  have hempty : extractCopyright [] = ([] : List Char) := by decide
  have hfile : ∀ st : ScanState, scanStep st (WalkEntry.file []) = st := by
    intro st
    simp [scanStep, hempty]
  have herr : ∀ st : ScanState, scanStep st WalkEntry.extractErr = st := fun _ => rfl
  constructor
  · unfold scanDirectory scanBody
    rw [List.foldl_append, List.foldl_append, List.foldl_cons, List.foldl_cons, hfile, herr]
  · exact herr

/-- Claim C8 (counterexample): a directory whose first readable license
candidate is an empty file defeats the claim — the license file is found
and read, but `ScanDirectory` guards on nonempty content, so no
separator section and no trailing newline are produced. -/
theorem claim_C8_counterexample :
    scanDirectory [some []] [] = [] ∧
    containsSub (scanDirectory [some []] []) (strOf "License Text:") = false ∧
    List.isSuffixOf ['\n'] (scanDirectory [some []] []) = false := by decide

/-- Claim C8 (amended): whenever the license content found by the probe
is nonempty, the report ends with the separator header (`\nLicense
Text:\n`, a rule line of forty dashes, a blank line) followed by the
verbatim license content, and the final output ends with a newline even
when the license content itself does not. -/
theorem claim_C8 (lic : List (Option (List Char))) (entries : List WalkEntry)
    (h : firstLicense lic ≠ []) :
    scanDirectory lic entries =
      scanBody entries ++ strOf "\nLicense Text:\n" ++
        strOf "----------------------------------------\n\n" ++ firstLicense lic ++
        (if List.isSuffixOf ['\n'] (firstLicense lic) then [] else ['\n']) ∧
    List.isSuffixOf ['\n'] (scanDirectory lic entries) = true := by
  have heq : scanDirectory lic entries =
      scanBody entries ++ strOf "\nLicense Text:\n" ++
        strOf "----------------------------------------\n\n" ++ firstLicense lic ++
        (if List.isSuffixOf ['\n'] (firstLicense lic) then [] else ['\n']) := by
    unfold scanDirectory
    rw [if_pos h]
  refine ⟨heq, ?_⟩
  rw [heq, List.isSuffixOf_iff_suffix]
  by_cases hn : List.isSuffixOf ['\n'] (firstLicense lic) = true
  · rw [if_pos hn, List.append_nil]
    have hsuf : ['\n'] <:+ firstLicense lic := List.isSuffixOf_iff_suffix.mp hn
    exact hsuf.trans (List.suffix_append _ _)
  · rw [if_neg hn]
    exact List.suffix_append _ _

/-- Witness for claim C8 at a concrete directory: a found `LICENSE` file
with content `MIT License...` yields a report ending in a newline. -/
theorem claim_C8_witness :
    List.isSuffixOf ['\n'] (scanDirectory [some (strOf "MIT License...")] []) = true :=
  (claim_C8 [some (strOf "MIT License...")] [] (by decide)).2

/-- Claim C1 (counterexample): the tree-wide deduplication of
`ScanDirectory` is keyed by the raw notice line, not by its
`NormalizedKey`: two files whose notices differ only in the year both
survive into one report even though their normalized keys coincide. -/
theorem claim_C1_counterexample :
    reportNoticeLines (scanDirectory []
        [WalkEntry.file (strOf "Copyright 2020 Acme Systems"),
         WalkEntry.file (strOf "Copyright 2021 Acme Systems")]) =
      [strOf "Copyright 2020 Acme Systems", strOf "Copyright 2021 Acme Systems"] ∧
    normalizeForComparison (strOf "Copyright 2020 Acme Systems") =
      normalizeForComparison (strOf "Copyright 2021 Acme Systems") ∧
    strOf "Copyright 2020 Acme Systems" ≠ strOf "Copyright 2021 Acme Systems" := by decide

/-- Claim C1 (amended): before a notice line from any file's per-file
output is appended to the tree-wide result, the raw cleaned line itself —
not its NormalizedKey — is checked against the tree-wide seen set, so no
two notice lines of a report body are equal as strings; notices with
equal NormalizedKeys but different raw text can nevertheless both
appear. -/
theorem claim_C1 (entries : List WalkEntry) :
    (reportNoticeLines (scanBody entries)).Nodup := by
  have hfold : ∀ (es : List WalkEntry) (st : ScanState),
      scanInv st → scanInv (es.foldl scanStep st) := by
    intro es
    induction es with
    | nil => exact fun st h => h
    | cons e es2 ih =>
      intro st h
      exact ih _ (scanStep_inv st e h)
  have hinv : scanInv (entries.foldl scanStep ⟨[], []⟩) :=
    hfold entries ⟨[], []⟩ ⟨rfl, List.nodup_nil, by simp⟩
  obtain ⟨hout, hnd, hgood⟩ := hinv
  unfold scanBody
  rw [hout, reportNoticeLines_emittedConcat _
    (fun c hc => hgood c (List.mem_reverse.mp hc))]
  exact List.nodup_reverse.mpr hnd

end Nemesis
